import Mathlib

/-!
# Verification of the RedisBloom scalable Bloom filter (`src/rebloom.c`)

A shallow embedding of the scalable Bloom filter engine of `src/rebloom.c`:
the generation chain (`linkedBloom` / `scalableBloom`), the add/check
operations, the RDB persistence codec (`BFRdbSave` / `BFRdbLoad`), and the
command adapters (`BFAdd_RedisCommand`, `BFCreate_RedisCommand`).

The single-generation Bloom primitive (`deps/bloom.c`: `bloom_init`,
`bloom_add_retbits`, `bloom_check`) is not part of `src/`; it is modelled
from the spec's interface contract (§4.1, §9): `insert` hashes the element
with `hashCount` hash functions, sets each resulting bit and returns the
number of bits that were newly set; `test` returns true iff every resulting
bit is set.  The hash family and the capacity/error-rate sizing formulas are
abstract parameters, bundled in `BloomModel`.
-/

/-- Modelled from the spec: the parameters of the external Bloom primitive
(`deps/bloom.c`, not in `src/`).  `bpe_of` is the `bits per element`
constant derived from capacity and error rate, `bits_of` the resulting bit
count (`entries * bpe` truncated, left abstract because the sizing formulas
use floating point), `hashes_of` the number of hash functions, and
`hash e i` the `i`-th hash of element `e` (the spec only requires `k` hash
functions over the bit array; positions are taken mod the bit count). -/
structure BloomModel (α : Type) where
  bpe_of : Nat → ℚ → ℚ
  bits_of : Nat → ℚ → Nat
  hashes_of : Nat → ℚ → Nat
  hash : α → Nat → Nat

/-- Truncation of a nonnegative rational to a natural number, standing in for
the C cast `(unsigned)(double)` used to compute `bits = entries * bpe`
(negative values, which the C code never produces, map to 0). -/
def qtoNat (q : ℚ) : Nat := q.num.toNat / q.den

/-- Modelled from the spec: `struct bloom` of `deps/bloom.h`.  The packed
byte buffer `bf` is modelled as a list of bits of length `bits`;
`bytes = ceil(bits/8)` is kept as a separate field. -/
structure bloomF where
  entries : Nat
  error : ℚ
  bpe : ℚ
  bits : Nat
  bytes : Nat
  bf : List Bool
  hashes : Nat
  ready : Bool
deriving Repr, DecidableEq

/-- `linkedBloom` of `src/rebloom.c`: one generation, its inner Bloom filter
plus the running count of newly filled bits.  The `next` pointer chain is
represented by the position in the `scalableBloom.cur` list. -/
structure linkedBloom where
  inner : bloomF
  fillbits : Nat
deriving Repr, DecidableEq

/-- `scalableBloom` of `src/rebloom.c`.  `cur` lists the generation chain
head (newest) first, in the order of the `next` links. -/
structure scalableBloom where
  cur : List linkedBloom
  total_entries : Nat
  error : ℚ
  is_fixed : Bool
deriving Repr, DecidableEq

/-- Modelled from the spec: `bloom_init` of `deps/bloom.c`.  Derives
`bpe`/`hashes` from the abstract sizing functions, computes
`bits = entries * bpe` (truncated) and `bytes = ceil(bits/8)`, and
allocates an all-zero bit array. -/
def bloom_init {α : Type} (M : BloomModel α) (entries : Nat) (error : ℚ) : bloomF :=
  let bpe := M.bpe_of entries error
  let bits := M.bits_of entries error
  { entries := entries
    error := error
    bpe := bpe
    bits := bits
    bytes := (bits + 7) / 8
    bf := List.replicate bits false
    hashes := M.hashes_of entries error
    ready := true }

/-- One check-and-set step of `bloom_add_retbits`: hash index `i` gives bit
position `hash e i % bits`; if that bit is 0 it is set and counted. -/
def setStep {α : Type} (M : BloomModel α) (e : α) (bits : Nat)
    (acc : Nat × List Bool) (i : Nat) : Nat × List Bool :=
  let p := M.hash e i % bits
  if p < acc.2.length && !(acc.2.getD p false) then (acc.1 + 1, acc.2.set p true)
  else acc

/-- Modelled from the spec: `bloom_add_retbits` of `deps/bloom.c`.  Sets the
bit at each of the `hashes` hash positions and returns how many of those
bits were previously 0 (newly set), together with the updated filter. -/
def bloom_add_retbits {α : Type} (M : BloomModel α) (b : bloomF) (e : α) :
    Nat × bloomF :=
  let r := (List.range b.hashes).foldl (setStep M e b.bits) (0, b.bf)
  (r.1, { b with bf := r.2 })

/-- Modelled from the spec: `bloom_check` of `deps/bloom.c`.  True iff the
bit at every hash position is already set. -/
def bloom_check {α : Type} (M : BloomModel α) (b : bloomF) (e : α) : Bool :=
  (List.range b.hashes).all fun i => b.bf.getD (M.hash e i % b.bits) false

/-- `lb_create` of `src/rebloom.c`: clamps the requested capacity to a
minimum of 1000 and initializes the inner Bloom filter; `fillbits` starts
at 0 (calloc). -/
def lb_create {α : Type} (M : BloomModel α) (size : Nat) (error_rate : ℚ) :
    linkedBloom :=
  let size := if size < 1000 then 1000 else size
  { inner := bloom_init M size error_rate
    fillbits := 0 }

/-- `lb_add` of `src/rebloom.c`: inserts into the generation and accumulates
the newly-set-bit count into `fillbits`.  Returns `newbits` like the C
function, paired with the updated generation. -/
def lb_add {α : Type} (M : BloomModel α) (lb : linkedBloom) (e : α) :
    Nat × linkedBloom :=
  let r := bloom_add_retbits M lb.inner e
  (r.1, { inner := r.2, fillbits := lb.fillbits + r.1 })

/-- `sb_check` of `src/rebloom.c`: true iff any generation in the chain
reports the element as present. -/
def sb_check {α : Type} (M : BloomModel α) (sb : scalableBloom) (e : α) : Bool :=
  sb.cur.any fun lb => bloom_check M lb.inner e

/-- `sb_add` of `src/rebloom.c`.  If the element already tests positive the
function returns 1 and changes nothing.  Otherwise, if the head generation
is more than half full (`fillbits * 2 > bits`), a new generation of double
the head's capacity is prepended; the element is then inserted into the
head and `total_entries` is incremented when the insert set at least one
new bit.  The C code dereferences `sb->cur` unconditionally; the `[]` case
below is unreachable for any live filter (`sb_create` makes the chain
nonempty and `sb_add` keeps it so). -/
def sb_add {α : Type} (M : BloomModel α) (sb : scalableBloom) (e : α) :
    Nat × scalableBloom :=
  if sb_check M sb e then (1, sb)
  else
    match sb.cur with
    | [] => (0, sb)
    | cur0 :: rest =>
      if cur0.fillbits * 2 > cur0.inner.bits then
        let nl := lb_create M (cur0.inner.entries * 2) sb.error
        let r := lb_add M nl e
        (r.1, { sb with
                cur := r.2 :: cur0 :: rest
                total_entries := sb.total_entries + (if r.1 = 0 then 0 else 1) })
      else
        let r := lb_add M cur0 e
        (r.1, { sb with
                cur := r.2 :: rest
                total_entries := sb.total_entries + (if r.1 = 0 then 0 else 1) })

/-- `sb_create` of `src/rebloom.c`: a fresh filter with one generation;
`total_entries = 0` and `is_fixed = false` come from `calloc`. -/
def sb_create {α : Type} (M : BloomModel α) (initsize : Nat) (error_rate : ℚ) :
    scalableBloom :=
  { cur := [lb_create M initsize error_rate]
    total_entries := 0
    error := error_rate
    is_fixed := false }

/-- Folding `sb_add` over a list of elements (a sequence of add operations;
the returned status of each call is discarded, as `bf_add_common` does). -/
def sb_addRun {α : Type} (M : BloomModel α) (sb : scalableBloom) (xs : List α) :
    scalableBloom :=
  xs.foldl (fun s e => (sb_add M s e).2) sb

/-! ## Persistence codec (`BFRdbSave` / `BFRdbLoad`)

The host's `RedisModule_Save*` / `RedisModule_Load*` primitives write and
read a linear stream of tagged values; the stream is modelled as a list of
`RdbToken`s. -/

/-- One value of the RDB stream: an unsigned integer, a double, or a
length-prefixed string buffer (here: the bit array plus its byte length). -/
inductive RdbToken where
  | unsigned (n : Nat)
  | double (q : ℚ)
  | buf (data : List Bool) (nbytes : Nat)
deriving Repr, DecidableEq

/-- The per-generation record written by `BFRdbSave`: capacity, hash count,
bits-per-element, the raw bit buffer, and `fillbits`. -/
def genTokens (lb : linkedBloom) : List RdbToken :=
  [.unsigned lb.inner.entries, .unsigned lb.inner.hashes,
   .double lb.inner.bpe, .buf lb.inner.bf lb.inner.bytes,
   .unsigned lb.fillbits]

/-- `BFRdbSave` of `src/rebloom.c`: header (`total_entries`, `error`,
`is_fixed`), then one record per generation walking the chain from `cur`
(newest first), then a literal 0 terminator. -/
def BFRdbSave (sb : scalableBloom) : List RdbToken :=
  [.unsigned sb.total_entries, .double sb.error,
   .unsigned (if sb.is_fixed then 1 else 0)]
  ++ (sb.cur.map genTokens).flatten
  ++ [.unsigned 0]

/-- The generation-loading loop of `BFRdbLoad`: reads records until the
0 terminator, prepending each loaded generation onto the chain built so far
(`lb->next = sb->cur; sb->cur = lb`).  The loaded generation's `error` is
the filter-level error rate and its `bits` is recomputed as
`entries * bpe`, as in the C code.  A stream that does not fit this shape
is malformed and yields `none`. -/
def loadGens (err : ℚ) : List RdbToken → List linkedBloom → Option (List linkedBloom)
  | .unsigned 0 :: _, chain => some chain
  | .unsigned n :: .unsigned h :: .double bpe :: .buf data len :: .unsigned fb :: rest,
    chain =>
      loadGens err rest
        ({ inner := { entries := n, error := err, bpe := bpe,
                      bits := qtoNat ((n : ℚ) * bpe), bytes := len,
                      bf := data, hashes := h, ready := true },
           fillbits := fb } :: chain)
  | _, _ => none

/-- `BFRdbLoad` of `src/rebloom.c`: rejects any encoding version other
than 0, then reads the header and the generation records. -/
def BFRdbLoad (encver : Nat) (ts : List RdbToken) : Option scalableBloom :=
  if encver ≠ 0 then none
  else
    match ts with
    | .unsigned total :: .double err :: .unsigned fixed :: rest =>
        (loadGens err rest []).map fun chain =>
          { cur := chain, total_entries := total, error := err,
            is_fixed := fixed != 0 }
    | _ => none

/-! ## Command adapter (`bf_add_common`, `BFAdd_RedisCommand`,
`BFCreate_RedisCommand`)

A key's slot either is empty, holds a value of another type, or holds one
scalable Bloom filter; replies are collected in order.  Arity errors and
unparsable error-rate arguments abort before touching any state and are
not modelled (the commands below take already-parsed arguments). -/

/-- The contents of the Redis key a command operates on. -/
inductive SlotVal where
  | empty
  | wrongType
  | filter (sb : scalableBloom)
deriving Repr

/-- A reply written back to the client. -/
inductive Reply where
  | nullReply
  | errReply (msg : String)
  | intReply (n : Int)
deriving Repr, DecidableEq

/-- `BFDefaultErrorRate` of `src/rebloom.c`. -/
def BFDefaultErrorRate : ℚ := 1 / 100

/-- `bf_add_common` of `src/rebloom.c`: if no filter exists yet, creates one
(capacity hint = number of elements, error rate defaulted when 0) with the
given `is_fixed` flag; then adds every element in order, discarding the
per-element status. -/
def bf_add_common {α : Type} (M : BloomModel α) (sbOpt : Option scalableBloom)
    (is_fixed : Bool) (error_rate : ℚ) (elems : List α) : scalableBloom :=
  let sb := match sbOpt with
    | some sb => sb
    | none =>
        let er := if error_rate = 0 then BFDefaultErrorRate else error_rate
        { sb_create M elems.length er with is_fixed := is_fixed }
  elems.foldl (fun s e => (sb_add M s e).2) sb

/-- `BFAdd_RedisCommand` of `src/rebloom.c` (`BF.SET` / `BF.SETNX`), acting
on the slot's contents with the already-parsed element arguments.  On a
wrong-typed slot the C code writes the error reply but is missing a
`return`, so it falls through to `bf_add_common` with a NULL filter,
overwriting the slot and replying a second time; the model reproduces
that fall-through. -/
def BFAdd_RedisCommand {α : Type} (M : BloomModel α) (isSetNX : Bool)
    (slot : SlotVal) (elems : List α) : List Reply × SlotVal :=
  match slot with
  | .filter sb =>
      if sb.is_fixed then
        ([.errReply "ERR cannot add: filter is fixed"], .filter sb)
      else if isSetNX then
        ([.errReply "ERR filter already exists"], .filter sb)
      else
        ([.nullReply], .filter (bf_add_common M (some sb) false 0 elems))
  | .empty => ([.nullReply], .filter (bf_add_common M none false 0 elems))
  | .wrongType =>
      ([.errReply "ERR mismatched type", .nullReply],
       .filter (bf_add_common M none false 0 elems))

/-- `BFCreate_RedisCommand` of `src/rebloom.c` (`BF.CREATE`): requires an
empty slot (the existing-filter error message is `status_strerror(SB_OK)`),
then creates a filter with `is_fixed = 1` and adds the trailing elements. -/
def BFCreate_RedisCommand {α : Type} (M : BloomModel α) (slot : SlotVal)
    (error_rate : ℚ) (elems : List α) : List Reply × SlotVal :=
  match slot with
  | .empty => ([.nullReply], .filter (bf_add_common M none true error_rate elems))
  | .filter sb => ([.errReply "ERR item exists"], .filter sb)
  | .wrongType => ([.errReply "ERR mismatched type"], .wrongType)

/-- The filter stored in a slot, if any. -/
def SlotVal.getFilter : SlotVal → Option scalableBloom
  | .filter sb => some sb
  | _ => none

/-! ## Predicates and auxiliary definitions used by the verification -/

/-- Number of set bits of a bit array. -/
def countTrue (l : List Bool) : Nat := l.count true

/-- The sizing functions yield a positive bit count for every capacity the
module can request (`lb_create` clamps capacities to at least 1000); true
of the real Bloom-filter sizing formulas for every meaningful error rate. -/
def posBits {α : Type} (M : BloomModel α) : Prop :=
  ∀ (n : Nat) (er : ℚ), 1000 ≤ n → 0 < M.bits_of n er

/-- Structural well-formedness of a live filter: a nonempty generation
chain whose bit arrays have exactly `bits` entries, with `bits` positive.
`sb_create` establishes it and `sb_add` preserves it. -/
def WF (sb : scalableBloom) : Prop :=
  sb.cur ≠ [] ∧ ∀ lb ∈ sb.cur, lb.inner.bf.length = lb.inner.bits ∧ 0 < lb.inner.bits

instance : DecidablePred WF := fun sb => by
  unfold WF
  exact inferInstance

/-- `fillbits` bookkeeping invariant: each generation's `fillbits` equals
the number of set bits of its array any time the filter is observable. -/
def FillInv (sb : scalableBloom) : Prop :=
  ∀ lb ∈ sb.cur,
    lb.fillbits = countTrue lb.inner.bf ∧ lb.inner.bf.length = lb.inner.bits

/-- Capacity invariant: every generation of a reachable filter has capacity
at least 1000. -/
def CapInv (sb : scalableBloom) : Prop :=
  ∀ lb ∈ sb.cur, 1000 ≤ lb.inner.entries

/-- Whether the next `sb_add` call on `sb` with element `x` triggers a
growth event (prepends a new generation): the element does not already test
positive and the head generation is more than half full. -/
def growsOn {α : Type} (M : BloomModel α) (sb : scalableBloom) (x : α) : Bool :=
  !sb_check M sb x &&
    (match sb.cur with
     | [] => false
     | cur0 :: _ => decide (cur0.fillbits * 2 > cur0.inner.bits))

/-- The number of growth events over a run of `sb_add` calls. -/
def growthEvents {α : Type} (M : BloomModel α) : scalableBloom → List α → Nat
  | _, [] => 0
  | sb, x :: xs =>
    (if growsOn M sb x then 1 else 0) + growthEvents M (sb_add M sb x).2 xs

/-- The filters reachable through the module's API: created by `sb_create`
(from `bf_add_common`) and evolved by `sb_add` calls. -/
inductive Reachable {α : Type} (M : BloomModel α) : scalableBloom → Prop
  | create (n : Nat) (er : ℚ) : Reachable M (sb_create M n er)
  | add {sb : scalableBloom} (e : α) : Reachable M sb → Reachable M (sb_add M sb e).2

/-! ## Concrete fixtures used by counterexamples and witnesses -/

/-- A small concrete instantiation of the abstract Bloom primitive, used for
concrete evaluations: one hash function which is the element itself, and a
sizing that gives every generation a 3-bit array. -/
def Mex : BloomModel Nat :=
  { bpe_of := fun _ _ => 1
    bits_of := fun _ _ => 3
    hashes_of := fun _ _ => 1
    hash := fun e _ => e }

/-- An older capacity-1000 generation with bits 0 and 1 set. -/
def gOld : linkedBloom :=
  { inner := { entries := 1000, error := 7, bpe := 1, bits := 3, bytes := 1,
               bf := [true, true, false], hashes := 1, ready := true }
    fillbits := 2 }

/-- A newer capacity-2000 generation with bit 0 set. -/
def gNew : linkedBloom :=
  { inner := { entries := 2000, error := 7, bpe := 1, bits := 6, bytes := 1,
               bf := [true, false, false, false, false, false], hashes := 1,
               ready := true }
    fillbits := 1 }

/-- A two-generation filter, chain newest-first `[gNew, gOld]`. -/
def sbEx : scalableBloom :=
  { cur := [gNew, gOld], total_entries := 3, error := 7, is_fixed := false }

/-- A one-generation filter whose head is more than half full
(`fillbits * 2 = 4 > 3 = bits`) and does not contain element 2. -/
def sbFull : scalableBloom :=
  { cur := [gOld], total_entries := 2, error := 7, is_fixed := false }

/-- A one-generation filter whose 3-bit array is fully set, so every
element tests positive under `Mex`. -/
def sbAllSet : scalableBloom :=
  { cur := [{ inner := { entries := 1000, error := 7, bpe := 1, bits := 3,
                         bytes := 1, bf := [true, true, true], hashes := 1,
                         ready := true }
              fillbits := 3 }]
    total_entries := 1, error := 7, is_fixed := false }

/-- A filter marked fixed. -/
def sbFixed : scalableBloom :=
  { sbAllSet with is_fixed := true }

/-! ## Helper lemmas: the check-and-set fold of the Bloom primitive -/

theorem getD_set_true_of_getD_true (l : List Bool) (p q : Nat)
    (h : l.getD q false = true) : (l.set p true).getD q false = true := by
  rw [List.getD_eq_getElem?_getD] at h ⊢
  by_cases hpq : p = q
  · subst hpq
    by_cases hp : p < l.length
    · rw [List.getElem?_set_self hp]; rfl
    · rw [List.set_eq_of_length_le (Nat.le_of_not_lt hp)]; exact h
  · rw [List.getElem?_set_ne hpq]; exact h

theorem getD_set_self (l : List Bool) (p : Nat) (hp : p < l.length) :
    (l.set p true).getD p false = true := by
  rw [List.getD_eq_getElem?_getD, List.getElem?_set_self hp]; rfl

theorem countTrue_set (l : List Bool) (p : Nat) (hp : p < l.length)
    (hf : l.getD p false = false) : countTrue (l.set p true) = countTrue l + 1 := by
  have hgl : l[p] = false := by
    rw [List.getD_eq_getElem?_getD, List.getElem?_eq_getElem hp] at hf
    exact hf
  unfold countTrue
  rw [List.count_set true true l p hp]
  simp [hgl]

section FoldLemmas

variable {α : Type} (M : BloomModel α) (e : α) (bits : Nat)

theorem setStep_length (acc : Nat × List Bool) (i : Nat) :
    ((setStep M e bits acc i).2).length = acc.2.length := by
  unfold setStep
  dsimp only
  split
  · exact List.length_set ..
  · rfl

theorem foldl_setStep_length (l : List Nat) (acc : Nat × List Bool) :
    ((l.foldl (setStep M e bits) acc).2).length = acc.2.length := by
  induction l generalizing acc with
  | nil => rfl
  | cons i t ih => rw [List.foldl_cons, ih, setStep_length]

theorem setStep_getD_mono (acc : Nat × List Bool) (i q : Nat)
    (h : acc.2.getD q false = true) :
    ((setStep M e bits acc i).2).getD q false = true := by
  unfold setStep
  dsimp only
  split
  · exact getD_set_true_of_getD_true _ _ _ h
  · exact h

theorem foldl_setStep_getD_mono (l : List Nat) (acc : Nat × List Bool) (q : Nat)
    (h : acc.2.getD q false = true) :
    ((l.foldl (setStep M e bits) acc).2).getD q false = true := by
  induction l generalizing acc with
  | nil => exact h
  | cons i t ih => rw [List.foldl_cons]; exact ih _ (setStep_getD_mono M e bits acc i q h)

theorem setStep_count (acc : Nat × List Bool) (i : Nat) :
    countTrue ((setStep M e bits acc i).2) + acc.1
      = countTrue acc.2 + (setStep M e bits acc i).1 := by
  unfold setStep
  dsimp only
  split
  · rename_i hcond
    simp only [Bool.and_eq_true, decide_eq_true_eq, Bool.not_eq_eq_eq_not,
      Bool.not_true] at hcond
    rw [countTrue_set _ _ hcond.1 hcond.2]
    omega
  · rfl

theorem foldl_setStep_count (l : List Nat) (acc : Nat × List Bool) :
    countTrue ((l.foldl (setStep M e bits) acc).2) + acc.1
      = countTrue acc.2 + (l.foldl (setStep M e bits) acc).1 := by
  induction l generalizing acc with
  | nil => rfl
  | cons i t ih =>
    rw [List.foldl_cons]
    have h1 := setStep_count M e bits acc i
    have h2 := ih (setStep M e bits acc i)
    omega

theorem setStep_getD_self (acc : Nat × List Bool) (i : Nat)
    (h : M.hash e i % bits < acc.2.length) :
    ((setStep M e bits acc i).2).getD (M.hash e i % bits) false = true := by
  unfold setStep
  dsimp only
  split
  · exact getD_set_self _ _ h
  · rename_i hcond
    simp only [Bool.and_eq_true, decide_eq_true_eq, Bool.not_eq_eq_eq_not,
      Bool.not_true, not_and] at hcond
    cases hg : acc.2.getD (M.hash e i % bits) false with
    | true => rfl
    | false => exact absurd hg (by simpa using hcond h)

theorem foldl_setStep_getD_self (l : List Nat) (acc : Nat × List Bool) (i : Nat)
    (hi : i ∈ l) (h : M.hash e i % bits < acc.2.length) :
    ((l.foldl (setStep M e bits) acc).2).getD (M.hash e i % bits) false = true := by
  induction l generalizing acc with
  | nil => cases hi
  | cons j t ih =>
    rw [List.foldl_cons]
    rcases List.mem_cons.mp hi with hj | ht
    · subst hj
      exact foldl_setStep_getD_mono M e bits t _ _ (setStep_getD_self M e bits acc i h)
    · exact ih _ ht (by rw [setStep_length]; exact h)

end FoldLemmas

/-! ## Helper lemmas: the Bloom primitive -/

section BloomLemmas

variable {α : Type} (M : BloomModel α)

@[simp] theorem bloom_add_retbits_bits (b : bloomF) (x : α) :
    ((bloom_add_retbits M b x).2).bits = b.bits := rfl

@[simp] theorem bloom_add_retbits_hashes (b : bloomF) (x : α) :
    ((bloom_add_retbits M b x).2).hashes = b.hashes := rfl

@[simp] theorem bloom_add_retbits_entries (b : bloomF) (x : α) :
    ((bloom_add_retbits M b x).2).entries = b.entries := rfl

theorem bloom_add_retbits_bf (b : bloomF) (x : α) :
    ((bloom_add_retbits M b x).2).bf
      = ((List.range b.hashes).foldl (setStep M x b.bits) (0, b.bf)).2 := rfl

theorem bloom_add_retbits_fst (b : bloomF) (x : α) :
    (bloom_add_retbits M b x).1
      = ((List.range b.hashes).foldl (setStep M x b.bits) (0, b.bf)).1 := rfl

theorem bloom_add_retbits_bf_length (b : bloomF) (x : α) :
    ((bloom_add_retbits M b x).2).bf.length = b.bf.length := by
  rw [bloom_add_retbits_bf]
  exact foldl_setStep_length M x b.bits _ _

theorem bloom_add_retbits_countTrue (b : bloomF) (x : α) :
    countTrue ((bloom_add_retbits M b x).2).bf
      = countTrue b.bf + (bloom_add_retbits M b x).1 := by
  rw [bloom_add_retbits_bf, bloom_add_retbits_fst]
  have h := foldl_setStep_count M x b.bits (List.range b.hashes) (0, b.bf)
  have h2 : (0, b.bf).2 = b.bf := rfl
  rw [h2] at h
  omega

theorem bloom_check_mono (b : bloomF) (x e : α)
    (h : bloom_check M b e = true) :
    bloom_check M (bloom_add_retbits M b x).2 e = true := by
  unfold bloom_check at h ⊢
  rw [List.all_eq_true] at h ⊢
  intro i hi
  rw [bloom_add_retbits_hashes] at hi
  rw [bloom_add_retbits_bits, bloom_add_retbits_bf]
  exact foldl_setStep_getD_mono M x b.bits _ _ _ (h i hi)

theorem bloom_check_add_self (b : bloomF) (e : α)
    (hlen : b.bf.length = b.bits) (hpos : 0 < b.bits) :
    bloom_check M (bloom_add_retbits M b e).2 e = true := by
  unfold bloom_check
  rw [List.all_eq_true]
  intro i hi
  rw [bloom_add_retbits_hashes] at hi
  rw [bloom_add_retbits_bits, bloom_add_retbits_bf]
  exact foldl_setStep_getD_self M e b.bits _ _ i hi
    (by dsimp only; rw [hlen]; exact Nat.mod_lt _ hpos)

end BloomLemmas

/-! ## Helper lemmas: the scalable filter -/

section SbLemmas

variable {α : Type} (M : BloomModel α)

theorem lb_create_entries (s : Nat) (er : ℚ) :
    (lb_create M s er).inner.entries = if s < 1000 then 1000 else s := rfl

theorem lb_create_wf (hM : posBits M) (s : Nat) (er : ℚ) :
    (lb_create M s er).inner.bf.length = (lb_create M s er).inner.bits
      ∧ 0 < (lb_create M s er).inner.bits := by
  refine ⟨by simp [lb_create, bloom_init], ?_⟩
  show 0 < M.bits_of (if s < 1000 then 1000 else s) er
  apply hM
  split <;> omega

theorem sb_add_of_check (sb : scalableBloom) (e : α)
    (h : sb_check M sb e = true) : sb_add M sb e = (1, sb) := by
  unfold sb_add
  rw [h]
  rfl

theorem sb_add_of_nil (sb : scalableBloom) (e : α)
    (hc : sb_check M sb e = false) (hcur : sb.cur = []) :
    sb_add M sb e = (0, sb) := by
  unfold sb_add
  rw [hc, hcur]
  rfl

theorem sb_add_grow (sb : scalableBloom) (e : α) (cur0 : linkedBloom)
    (rest : List linkedBloom) (hcur : sb.cur = cur0 :: rest)
    (hc : sb_check M sb e = false)
    (hfull : cur0.fillbits * 2 > cur0.inner.bits) :
    sb_add M sb e =
      ((lb_add M (lb_create M (cur0.inner.entries * 2) sb.error) e).1,
       { sb with
         cur := (lb_add M (lb_create M (cur0.inner.entries * 2) sb.error) e).2
                  :: cur0 :: rest
         total_entries := sb.total_entries +
           (if (lb_add M (lb_create M (cur0.inner.entries * 2) sb.error) e).1 = 0
            then 0 else 1) }) := by
  unfold sb_add
  rw [hc, hcur]
  simp [hfull]

theorem sb_add_nogrow (sb : scalableBloom) (e : α) (cur0 : linkedBloom)
    (rest : List linkedBloom) (hcur : sb.cur = cur0 :: rest)
    (hc : sb_check M sb e = false)
    (hfull : ¬ cur0.fillbits * 2 > cur0.inner.bits) :
    sb_add M sb e =
      ((lb_add M cur0 e).1,
       { sb with
         cur := (lb_add M cur0 e).2 :: rest
         total_entries := sb.total_entries +
           (if (lb_add M cur0 e).1 = 0 then 0 else 1) }) := by
  unfold sb_add
  rw [hc, hcur]
  simp [hfull]

theorem lb_add_inner (lb : linkedBloom) (e : α) :
    (lb_add M lb e).2.inner = (bloom_add_retbits M lb.inner e).2 := rfl

theorem lb_add_fillbits (lb : linkedBloom) (e : α) :
    (lb_add M lb e).2.fillbits = lb.fillbits + (bloom_add_retbits M lb.inner e).1 := rfl

theorem WF_sb_create (hM : posBits M) (n : Nat) (er : ℚ) :
    WF (sb_create M n er) := by
  refine ⟨by simp [sb_create], ?_⟩
  intro lb hlb
  simp only [sb_create, List.mem_singleton] at hlb
  subst hlb
  exact lb_create_wf M hM n er

theorem WF_sb_add (hM : posBits M) (sb : scalableBloom) (e : α) (h : WF sb) :
    WF (sb_add M sb e).2 := by
  obtain ⟨hne, hall⟩ := h
  by_cases hc : sb_check M sb e
  · rw [sb_add_of_check M sb e hc]; exact ⟨hne, hall⟩
  · rw [Bool.not_eq_true] at hc
    cases hcur : sb.cur with
    | nil => exact absurd hcur hne
    | cons cur0 rest =>
      have hcur0 : cur0 ∈ sb.cur := by rw [hcur]; exact List.mem_cons_self ..
      by_cases hfull : cur0.fillbits * 2 > cur0.inner.bits
      · rw [sb_add_grow M sb e cur0 rest hcur hc hfull]
        refine ⟨by simp, ?_⟩
        intro lb hlb
        rcases List.mem_cons.mp hlb with hhd | htl
        · subst hhd
          rw [lb_add_inner]
          constructor
          · rw [bloom_add_retbits_bf_length, bloom_add_retbits_bits]
            exact (lb_create_wf M hM _ _).1
          · rw [bloom_add_retbits_bits]
            exact (lb_create_wf M hM _ _).2
        · exact hall _ (by rw [hcur]; exact htl)
      · rw [sb_add_nogrow M sb e cur0 rest hcur hc hfull]
        refine ⟨by simp, ?_⟩
        intro lb hlb
        rcases List.mem_cons.mp hlb with hhd | htl
        · subst hhd
          rw [lb_add_inner]
          constructor
          · rw [bloom_add_retbits_bf_length, bloom_add_retbits_bits]
            exact (hall _ hcur0).1
          · rw [bloom_add_retbits_bits]
            exact (hall _ hcur0).2
        · exact hall _ (by rw [hcur]; exact List.mem_cons_of_mem _ htl)

theorem sb_check_cons (lb : linkedBloom) (rest : List linkedBloom)
    (sb : scalableBloom) (e : α) (hcur : sb.cur = lb :: rest) :
    sb_check M sb e
      = (bloom_check M lb.inner e
          || sb_check M { sb with cur := rest } e) := by
  unfold sb_check
  rw [hcur]
  rfl

theorem sb_check_sb_add_self (hM : posBits M) (sb : scalableBloom) (e : α)
    (h : WF sb) : sb_check M (sb_add M sb e).2 e = true := by
  by_cases hc : sb_check M sb e
  · rw [sb_add_of_check M sb e hc]; exact hc
  · rw [Bool.not_eq_true] at hc
    obtain ⟨hne, hall⟩ := h
    cases hcur : sb.cur with
    | nil => exact absurd hcur hne
    | cons cur0 rest =>
      have hcur0 : cur0 ∈ sb.cur := by rw [hcur]; exact List.mem_cons_self ..
      by_cases hfull : cur0.fillbits * 2 > cur0.inner.bits
      · rw [sb_add_grow M sb e cur0 rest hcur hc hfull]
        unfold sb_check
        simp only [List.any_cons, Bool.or_eq_true]
        left
        rw [lb_add_inner]
        exact bloom_check_add_self M _ e (lb_create_wf M hM _ _).1 (lb_create_wf M hM _ _).2
      · rw [sb_add_nogrow M sb e cur0 rest hcur hc hfull]
        unfold sb_check
        simp only [List.any_cons, Bool.or_eq_true]
        left
        rw [lb_add_inner]
        exact bloom_check_add_self M _ e (hall _ hcur0).1 (hall _ hcur0).2

theorem sb_check_sb_add_mono (sb : scalableBloom) (x e : α)
    (h : sb_check M sb e = true) :
    sb_check M (sb_add M sb x).2 e = true := by
  by_cases hc : sb_check M sb x
  · rw [sb_add_of_check M sb x hc]; exact h
  · rw [Bool.not_eq_true] at hc
    cases hcur : sb.cur with
    | nil => rw [sb_add_of_nil M sb x hc hcur]; exact h
    | cons cur0 rest =>
      unfold sb_check at h
      rw [hcur] at h
      simp only [List.any_cons, Bool.or_eq_true] at h
      by_cases hfull : cur0.fillbits * 2 > cur0.inner.bits
      · rw [sb_add_grow M sb x cur0 rest hcur hc hfull]
        unfold sb_check
        simp only [List.any_cons, Bool.or_eq_true]
        rcases h with h0 | hrest
        · exact Or.inr (Or.inl h0)
        · exact Or.inr (Or.inr hrest)
      · rw [sb_add_nogrow M sb x cur0 rest hcur hc hfull]
        unfold sb_check
        simp only [List.any_cons, Bool.or_eq_true]
        rcases h with h0 | hrest
        · rw [lb_add_inner]
          exact Or.inl (bloom_check_mono M cur0.inner x e h0)
        · exact Or.inr hrest

theorem sb_check_addRun_mono (sb : scalableBloom) (e : α) (xs : List α)
    (h : sb_check M sb e = true) :
    sb_check M (sb_addRun M sb xs) e = true := by
  induction xs generalizing sb with
  | nil => exact h
  | cons x t ih =>
    rw [sb_addRun, List.foldl_cons]
    exact ih _ (sb_check_sb_add_mono M sb x e h)

theorem sb_add_is_fixed (sb : scalableBloom) (e : α) :
    (sb_add M sb e).2.is_fixed = sb.is_fixed := by
  by_cases hc : sb_check M sb e
  · rw [sb_add_of_check M sb e hc]
  · rw [Bool.not_eq_true] at hc
    cases hcur : sb.cur with
    | nil => rw [sb_add_of_nil M sb e hc hcur]
    | cons cur0 rest =>
      by_cases hfull : cur0.fillbits * 2 > cur0.inner.bits
      · rw [sb_add_grow M sb e cur0 rest hcur hc hfull]
      · rw [sb_add_nogrow M sb e cur0 rest hcur hc hfull]

theorem sb_addRun_is_fixed (sb : scalableBloom) (xs : List α) :
    (sb_addRun M sb xs).is_fixed = sb.is_fixed := by
  induction xs generalizing sb with
  | nil => rfl
  | cons x t ih =>
    rw [sb_addRun, List.foldl_cons]
    rw [show (List.foldl (fun s e => (sb_add M s e).2) (sb_add M sb x).2 t)
          = sb_addRun M (sb_add M sb x).2 t from rfl]
    rw [ih, sb_add_is_fixed]

theorem sb_add_total_le (sb : scalableBloom) (e : α) :
    (sb_add M sb e).2.total_entries ≤ sb.total_entries + 1 := by
  by_cases hc : sb_check M sb e
  · rw [sb_add_of_check M sb e hc]; exact Nat.le_succ _
  · rw [Bool.not_eq_true] at hc
    cases hcur : sb.cur with
    | nil => rw [sb_add_of_nil M sb e hc hcur]; exact Nat.le_succ _
    | cons cur0 rest =>
      by_cases hfull : cur0.fillbits * 2 > cur0.inner.bits
      · rw [sb_add_grow M sb e cur0 rest hcur hc hfull]
        dsimp only
        split <;> omega
      · rw [sb_add_nogrow M sb e cur0 rest hcur hc hfull]
        dsimp only
        split <;> omega

theorem Reachable_WF (hM : posBits M) (sb : scalableBloom)
    (h : Reachable M sb) : WF sb := by
  induction h with
  | create n er => exact WF_sb_create M hM n er
  | add e _ ih => exact WF_sb_add M hM _ e ih

theorem lb_create_bf_length (s : Nat) (er : ℚ) :
    (lb_create M s er).inner.bf.length = (lb_create M s er).inner.bits := by
  simp [lb_create, bloom_init]

theorem lb_create_countTrue (s : Nat) (er : ℚ) :
    countTrue (lb_create M s er).inner.bf = 0 := by
  simp [lb_create, bloom_init, countTrue, List.count_replicate]

theorem FillInv_lb_add (t : linkedBloom) (e : α)
    (h1 : t.fillbits = countTrue t.inner.bf)
    (h2 : t.inner.bf.length = t.inner.bits) :
    (lb_add M t e).2.fillbits = countTrue (lb_add M t e).2.inner.bf
      ∧ (lb_add M t e).2.inner.bf.length = (lb_add M t e).2.inner.bits := by
  constructor
  · rw [lb_add_fillbits, lb_add_inner, bloom_add_retbits_countTrue, h1]
  · rw [lb_add_inner, bloom_add_retbits_bf_length, bloom_add_retbits_bits, h2]

theorem FillInv_sb_create (n : Nat) (er : ℚ) : FillInv (sb_create M n er) := by
  intro lb hlb
  simp only [sb_create, List.mem_singleton] at hlb
  subst hlb
  exact ⟨(lb_create_countTrue M n er).symm, lb_create_bf_length M n er⟩

theorem FillInv_sb_add (sb : scalableBloom) (e : α) (h : FillInv sb) :
    FillInv (sb_add M sb e).2 := by
  by_cases hc : sb_check M sb e
  · rw [sb_add_of_check M sb e hc]; exact h
  · rw [Bool.not_eq_true] at hc
    cases hcur : sb.cur with
    | nil => rw [sb_add_of_nil M sb e hc hcur]; exact h
    | cons cur0 rest =>
      have hcur0 : cur0 ∈ sb.cur := by rw [hcur]; exact List.mem_cons_self ..
      by_cases hfull : cur0.fillbits * 2 > cur0.inner.bits
      · rw [sb_add_grow M sb e cur0 rest hcur hc hfull]
        intro lb hlb
        rcases List.mem_cons.mp hlb with hhd | htl
        · subst hhd
          exact FillInv_lb_add M _ e (by rw [lb_create_countTrue]; rfl)
            (lb_create_bf_length M _ _)
        · exact h _ (by rw [hcur]; exact htl)
      · rw [sb_add_nogrow M sb e cur0 rest hcur hc hfull]
        intro lb hlb
        rcases List.mem_cons.mp hlb with hhd | htl
        · subst hhd
          exact FillInv_lb_add M cur0 e (h _ hcur0).1 (h _ hcur0).2
        · exact h _ (by rw [hcur]; exact List.mem_cons_of_mem _ htl)

theorem Reachable_FillInv (sb : scalableBloom) (h : Reachable M sb) : FillInv sb := by
  induction h with
  | create n er => exact FillInv_sb_create M n er
  | add e _ ih => exact FillInv_sb_add M _ e ih

theorem lb_create_entries_ge (s : Nat) (er : ℚ) :
    1000 ≤ (lb_create M s er).inner.entries := by
  rw [lb_create_entries]
  split <;> omega

theorem CapInv_sb_add (sb : scalableBloom) (e : α) (h : CapInv sb) :
    CapInv (sb_add M sb e).2 := by
  by_cases hc : sb_check M sb e
  · rw [sb_add_of_check M sb e hc]; exact h
  · rw [Bool.not_eq_true] at hc
    cases hcur : sb.cur with
    | nil => rw [sb_add_of_nil M sb e hc hcur]; exact h
    | cons cur0 rest =>
      have hcur0 : cur0 ∈ sb.cur := by rw [hcur]; exact List.mem_cons_self ..
      by_cases hfull : cur0.fillbits * 2 > cur0.inner.bits
      · rw [sb_add_grow M sb e cur0 rest hcur hc hfull]
        intro lb hlb
        rcases List.mem_cons.mp hlb with hhd | htl
        · subst hhd
          rw [lb_add_inner, bloom_add_retbits_entries]
          exact lb_create_entries_ge M _ _
        · exact h _ (by rw [hcur]; exact htl)
      · rw [sb_add_nogrow M sb e cur0 rest hcur hc hfull]
        intro lb hlb
        rcases List.mem_cons.mp hlb with hhd | htl
        · subst hhd
          rw [lb_add_inner, bloom_add_retbits_entries]
          exact h _ hcur0
        · exact h _ (by rw [hcur]; exact List.mem_cons_of_mem _ htl)

theorem Reachable_CapInv (sb : scalableBloom) (h : Reachable M sb) : CapInv sb := by
  induction h with
  | create n er =>
    intro lb hlb
    simp only [sb_create, List.mem_singleton] at hlb
    subst hlb
    exact lb_create_entries_ge M n er
  | add e _ ih => exact CapInv_sb_add M _ e ih

theorem sb_add_cur_length (sb : scalableBloom) (x : α) :
    (sb_add M sb x).2.cur.length
      = sb.cur.length + (if growsOn M sb x then 1 else 0) := by
  by_cases hc : sb_check M sb x
  · rw [sb_add_of_check M sb x hc]
    simp [growsOn, hc]
  · rw [Bool.not_eq_true] at hc
    cases hcur : sb.cur with
    | nil =>
      rw [sb_add_of_nil M sb x hc hcur]
      simp [growsOn, hc, hcur]
    | cons cur0 rest =>
      by_cases hfull : cur0.fillbits * 2 > cur0.inner.bits
      · rw [sb_add_grow M sb x cur0 rest hcur hc hfull]
        simp [growsOn, hc, hcur, hfull]
      · rw [sb_add_nogrow M sb x cur0 rest hcur hc hfull]
        simp [growsOn, hc, hcur, hfull]

theorem sb_addRun_cur_length (xs : List α) (sb : scalableBloom) :
    (sb_addRun M sb xs).cur.length = sb.cur.length + growthEvents M sb xs := by
  induction xs generalizing sb with
  | nil => rfl
  | cons x t ih =>
    rw [sb_addRun, List.foldl_cons,
      show (List.foldl (fun s e => (sb_add M s e).2) (sb_add M sb x).2 t)
        = sb_addRun M (sb_add M sb x).2 t from rfl,
      ih, sb_add_cur_length, growthEvents]
    omega

end SbLemmas

/-! ## Helper lemmas: the command adapter -/

theorem bf_add_common_none_is_fixed {α : Type} (M : BloomModel α) (isf : Bool)
    (er : ℚ) (elems : List α) :
    (bf_add_common M none isf er elems).is_fixed = isf := by
  unfold bf_add_common
  dsimp only
  rw [show (elems.foldl (fun s e => (sb_add M s e).2)
        { sb_create M elems.length (if er = 0 then BFDefaultErrorRate else er) with
          is_fixed := isf })
      = sb_addRun M
        { sb_create M elems.length (if er = 0 then BFDefaultErrorRate else er) with
          is_fixed := isf } elems from rfl]
  rw [sb_addRun_is_fixed]

theorem posBits_Mex : posBits Mex := by
  intro n er h
  show (0 : Nat) < 3
  decide

/-! ## The claims -/

/-- Claim C1.  The claim (round-trip persistence preserves the scalar fields
and reproduces the in-memory generation chain in the same newest-first
order) fails on the code: `BFRdbSave` writes generations newest-first and
`BFRdbLoad` prepends each loaded generation, so the reloaded chain is in
reversed (oldest-first) order.  On the two-generation filter `sbEx` (chain
capacities `[2000, 1000]` newest-first) the reload preserves
`total_entries`, `error`, `is_fixed`, the generation count and every
generation's `entries`/`hashes`/`fillbits`/bit-array, but the chain comes
back as the reverse `[1000, 2000]`. -/
theorem bf_rdb_roundtrip_reverses_chain :
    ((BFRdbLoad 0 (BFRdbSave sbEx)).map fun s =>
        (s.total_entries, s.error, s.is_fixed, s.cur.length))
      = some (3, 7, false, 2)
    ∧ ((BFRdbLoad 0 (BFRdbSave sbEx)).map fun s => s.cur.map fun lb =>
        (lb.inner.entries, lb.inner.hashes, lb.fillbits, lb.inner.bf))
      = some ((sbEx.cur.map fun lb =>
          (lb.inner.entries, lb.inner.hashes, lb.fillbits, lb.inner.bf)).reverse)
    ∧ ((BFRdbLoad 0 (BFRdbSave sbEx)).map fun s => s.cur.map fun lb => lb.inner.entries)
        = some [1000, 2000]
    ∧ (sbEx.cur.map fun lb => lb.inner.entries) = [2000, 1000] := by
  refine ⟨by decide, by decide, by decide, by decide⟩

/-- Claim C2, counterexample.  The claim says that when the element already
tests positive, `sb_add` returns false (0); on `sbAllSet` (whose head
array is fully set, so element 0 tests positive) `sb_add` returns 1, not
0 — though it does leave the filter unchanged. -/
theorem sb_add_present_returns_one_cex :
    sb_check Mex sbAllSet 0 = true
    ∧ (sb_add Mex sbAllSet 0).1 = 1
    ∧ ¬ (sb_add Mex sbAllSet 0).1 = 0
    ∧ (sb_add Mex sbAllSet 0).2 = sbAllSet := by
  refine ⟨by decide, by decide, by decide, by decide⟩

/-- Claim C2, amended.  For every scalable filter and element, if the
membership test is already true then `sb_add` returns 1 (a nonzero,
already-present status, not false/0) and leaves the filter's state —
chain, fillbits and `total_entries` — unchanged. -/
theorem sb_add_present_noop :
    ∀ (α : Type) (M : BloomModel α) (sb : scalableBloom) (e : α),
      sb_check M sb e = true → sb_add M sb e = (1, sb) :=
  fun _ M sb e h => sb_add_of_check M sb e h

theorem sb_add_present_noop_witness :
    sb_add Mex sbAllSet 2 = (1, sbAllSet) :=
  sb_add_present_noop Nat Mex sbAllSet 2 (by decide)

/-- Claim C3.  For every well-formed filter (nonempty chain, bit arrays of
positive length `bits` — true of every filter the module creates, given
positive sizing) and every element, after `sb_add` the membership test is
true and remains true after any later sequence of `sb_add` calls:
membership is monotone, bits are never cleared. -/
theorem bf_no_false_negatives :
    ∀ (α : Type) (M : BloomModel α), posBits M → ∀ (sb : scalableBloom), WF sb →
      ∀ (e : α),
        sb_check M (sb_add M sb e).2 e = true
        ∧ ∀ (xs : List α), sb_check M (sb_addRun M (sb_add M sb e).2 xs) e = true := by
  intro α M hM sb hwf e
  have h1 := sb_check_sb_add_self M hM sb e hwf
  exact ⟨h1, fun xs => sb_check_addRun_mono M _ e xs h1⟩

theorem bf_no_false_negatives_witness :
    sb_check Mex (sb_add Mex (sb_create Mex 1 7) 1).2 1 = true
    ∧ sb_check Mex (sb_addRun Mex (sb_add Mex (sb_create Mex 1 7) 1).2 [2]) 1 = true := by
  have h := bf_no_false_negatives Nat Mex posBits_Mex (sb_create Mex 1 7) (by decide) 1
  exact ⟨h.1, h.2 [2]⟩

/-- Claim C4.  (i) Every generation of a reachable filter has capacity at
least 1000, so (ii) applies to every reachable filter: when the head
generation satisfies `fillbits * 2 > bits` and the added element does not
already test positive, `sb_add` prepends exactly one new generation of
exactly double the head's capacity, the old head becoming its older link;
and (iii) from creation, the chain length always equals 1 plus the number
of growth events. -/
theorem bf_growth_trigger :
    (∀ (α : Type) (M : BloomModel α) (sb : scalableBloom),
        Reachable M sb → ∀ lb ∈ sb.cur, 1000 ≤ lb.inner.entries)
    ∧ (∀ (α : Type) (M : BloomModel α) (sb : scalableBloom) (e : α)
        (cur0 : linkedBloom) (rest : List linkedBloom),
        sb.cur = cur0 :: rest → sb_check M sb e = false →
        cur0.fillbits * 2 > cur0.inner.bits → 1000 ≤ cur0.inner.entries →
        ∃ g, (sb_add M sb e).2.cur = g :: cur0 :: rest
          ∧ g.inner.entries = cur0.inner.entries * 2
          ∧ (sb_add M sb e).2.cur.length = sb.cur.length + 1)
    ∧ (∀ (α : Type) (M : BloomModel α) (n : Nat) (er : ℚ) (xs : List α),
        (sb_addRun M (sb_create M n er) xs).cur.length
          = 1 + growthEvents M (sb_create M n er) xs) := by
  refine ⟨?_, ?_, ?_⟩
  · intro α M sb h lb hlb
    exact Reachable_CapInv M sb h lb hlb
  · intro α M sb e cur0 rest hcur hc hfull hcap
    rw [sb_add_grow M sb e cur0 rest hcur hc hfull]
    refine ⟨_, rfl, ?_, ?_⟩
    · rw [lb_add_inner, bloom_add_retbits_entries, lb_create_entries,
        if_neg (by omega)]
    · rw [hcur]
      simp
  · intro α M n er xs
    rw [sb_addRun_cur_length]
    rfl

theorem bf_growth_trigger_witness :
    1000 ≤ (lb_create Mex 1 7).inner.entries
    ∧ (∃ g, (sb_add Mex sbFull 2).2.cur = g :: gOld :: []
        ∧ g.inner.entries = gOld.inner.entries * 2
        ∧ (sb_add Mex sbFull 2).2.cur.length = sbFull.cur.length + 1)
    ∧ (sb_addRun Mex (sb_create Mex 1 7) [0, 1, 2]).cur.length
        = 1 + growthEvents Mex (sb_create Mex 1 7) [0, 1, 2] := by
  refine ⟨?_, ?_, ?_⟩
  · exact bf_growth_trigger.1 Nat Mex (sb_create Mex 1 7) (Reachable.create 1 7)
      (lb_create Mex 1 7) (List.mem_cons_self ..)
  · exact bf_growth_trigger.2.1 Nat Mex sbFull 2 gOld [] rfl (by decide) (by decide)
      (by decide)
  · exact bf_growth_trigger.2.2 Nat Mex 1 7 [0, 1, 2]

/-- Claim C5.  Calling `sb_add` twice in a row with the same element
increments `total_entries` by at most 1 (for every well-formed filter under
positive sizing); and on a freshly created filter, adding the same element
twice gives `total_entries = 1`. -/
theorem bf_add_idempotentish :
    (∀ (α : Type) (M : BloomModel α), posBits M → ∀ (sb : scalableBloom), WF sb →
      ∀ (e : α),
        (sb_add M (sb_add M sb e).2 e).2.total_entries ≤ sb.total_entries + 1)
    ∧ (sb_add Mex (sb_add Mex (sb_create Mex 1 (1/100)) 0).2 0).2.total_entries = 1 := by
  constructor
  · intro α M hM sb hwf e
    have h2 := sb_check_sb_add_self M hM sb e hwf
    rw [sb_add_of_check M _ e h2]
    exact sb_add_total_le M sb e
  · decide

theorem bf_add_idempotentish_witness :
    (sb_add Mex (sb_add Mex (sb_create Mex 1 7) 1).2 1).2.total_entries
      ≤ (sb_create Mex 1 7).total_entries + 1 :=
  bf_add_idempotentish.1 Nat Mex posBits_Mex (sb_create Mex 1 7) (by decide) 1

/-- Claim C6.  The claim (on a wrong-typed slot the add command reports the
error and performs no insertion and no state change) fails on the code:
`BFAdd_RedisCommand` is missing a `return` after the type error, so it
writes the error reply and then falls through to `bf_add_common` with a
NULL filter, overwriting the slot with a freshly created filter containing
the inserted element and replying a second time. -/
theorem bf_add_wrongtype_inserts_anyway :
    (BFAdd_RedisCommand Mex false SlotVal.wrongType [5]).1
        = [Reply.errReply "ERR mismatched type", Reply.nullReply]
    ∧ ((BFAdd_RedisCommand Mex false SlotVal.wrongType [5]).2.getFilter).map
        (fun s => (s.total_entries, s.is_fixed, sb_check Mex s 5))
      = some (1, false, true) := by
  refine ⟨by decide, by decide⟩

/-- Claim C7.  Decoding a record tagged with an encoding version other
than 0 fails closed: `BFRdbLoad` returns `none` before reading anything,
for every token stream. -/
theorem bf_rdb_load_rejects_bad_version :
    ∀ (encver : Nat) (ts : List RdbToken), encver ≠ 0 →
      BFRdbLoad encver ts = none := by
  intro encver ts h
  unfold BFRdbLoad
  rw [if_pos h]

theorem bf_rdb_load_rejects_bad_version_witness :
    BFRdbLoad 1 [RdbToken.unsigned 3, RdbToken.double 7, RdbToken.unsigned 0,
      RdbToken.unsigned 0] = none :=
  bf_rdb_load_rejects_bad_version 1 _ (by decide)

/-- Claim C8.  `lb_create` clamps every requested capacity below 1000 to
1000, for every error rate; in particular a request for capacity 10 at
error rate 0.01 yields an effective capacity of 1000. -/
theorem lb_create_capacity_floor :
    (∀ (α : Type) (M : BloomModel α) (size : Nat) (er : ℚ), size < 1000 →
        (lb_create M size er).inner.entries = 1000)
    ∧ (lb_create Mex 10 (1/100)).inner.entries = 1000 := by
  constructor
  · intro α M size er h
    rw [lb_create_entries, if_pos h]
  · rfl

theorem lb_create_capacity_floor_witness :
    (lb_create Mex 10 (1/100)).inner.entries = 1000 :=
  lb_create_capacity_floor.1 Nat Mex 10 (1/100) (by decide)

/-- Claim C9.  For every generation of every reachable scalable filter,
`fillbits ≤ bits` holds after every sequence of add operations; the model's
insert primitive returns exactly the number of bit positions it
transitioned from 0 to 1, as the claim assumes. -/
theorem bf_fillbits_le_bits :
    ∀ (α : Type) (M : BloomModel α) (sb : scalableBloom), Reachable M sb →
      ∀ lb ∈ sb.cur, lb.fillbits ≤ lb.inner.bits := by
  intro α M sb h lb hlb
  obtain ⟨h1, h2⟩ := Reachable_FillInv M sb h lb hlb
  rw [h1, ← h2]
  exact List.count_le_length true lb.inner.bf

theorem bf_fillbits_le_bits_witness :
    (lb_create Mex 5 7).fillbits ≤ (lb_create Mex 5 7).inner.bits :=
  bf_fillbits_le_bits Nat Mex (sb_create Mex 5 7) (Reachable.create 5 7)
    (lb_create Mex 5 7) (List.mem_cons_self ..)

/-- Claim C10.  Every filter created through `BFCreate_RedisCommand` has
`is_fixed = true` unconditionally (the command passes the literal 1 and
accepts no flag); every add command against a fixed filter is rejected with
the fixed error and changes nothing; and filters created lazily by the add
command have `is_fixed = false`. -/
theorem bf_create_fixed_policy :
    (∀ (α : Type) (M : BloomModel α) (er : ℚ) (elems : List α),
        ((BFCreate_RedisCommand M SlotVal.empty er elems).2.getFilter).map
          (fun s => s.is_fixed) = some true)
    ∧ (∀ (α : Type) (M : BloomModel α) (isSetNX : Bool) (sb : scalableBloom)
        (elems : List α), sb.is_fixed = true →
        BFAdd_RedisCommand M isSetNX (SlotVal.filter sb) elems
          = ([Reply.errReply "ERR cannot add: filter is fixed"], SlotVal.filter sb))
    ∧ (∀ (α : Type) (M : BloomModel α) (isSetNX : Bool) (elems : List α),
        ((BFAdd_RedisCommand M isSetNX SlotVal.empty elems).2.getFilter).map
          (fun s => s.is_fixed) = some false) := by
  refine ⟨?_, ?_, ?_⟩
  · intro α M er elems
    show some (bf_add_common M none true er elems).is_fixed = some true
    rw [bf_add_common_none_is_fixed]
  · intro α M isSetNX sb elems h
    simp [BFAdd_RedisCommand, h]
  · intro α M isSetNX elems
    show some (bf_add_common M none false 0 elems).is_fixed = some false
    rw [bf_add_common_none_is_fixed]

theorem bf_create_fixed_policy_witness :
    ((BFCreate_RedisCommand Mex SlotVal.empty 7 [1, 2]).2.getFilter).map
        (fun s => s.is_fixed) = some true
    ∧ BFAdd_RedisCommand Mex false (SlotVal.filter sbFixed) [9]
        = ([Reply.errReply "ERR cannot add: filter is fixed"], SlotVal.filter sbFixed)
    ∧ ((BFAdd_RedisCommand Mex false SlotVal.empty [1]).2.getFilter).map
        (fun s => s.is_fixed) = some false :=
  ⟨bf_create_fixed_policy.1 Nat Mex 7 [1, 2],
   bf_create_fixed_policy.2.1 Nat Mex false sbFixed [9] rfl,
   bf_create_fixed_policy.2.2 Nat Mex false [1]⟩
